import Mathlib

/-!
Verification of the node-registry aggregation and the background-removal
pipeline of the `backpacking` repository.

The pipeline is `SwarmRemBg.rem` in
`src/BuiltinExtensions/ComfyUIBackend/ExtraNodes/SwarmComfyExtra/SwarmRemBg.py`;
the registry merge is the dict-union chain in
`src/BuiltinExtensions/ComfyUIBackend/ExtraNodes/SwarmComfyCommon/__init__.py`.

Images in the host tensor representation are height × width × channel grids
of normalized samples, embedded as nested lists of rationals. The external
matting function (`rembg.remove`) is opaque and injected as a parameter; its
result is a PIL-style image: an 8-bit pixel grid together with whether an
alpha band is present (the code tests `'A' in img.getbands()`).
-/

namespace Backpacking

/-- A normalized floating-point image: a height × width × channel grid of
samples, each sample modeled as a rational number. -/
abbrev Image3 := List (List (List ℚ))

/-- A PIL-style 8-bit image: a height × width pixel grid (each pixel a list
of channel values) plus whether an alpha band is present. -/
structure PILImage where
  hasAlpha : Bool
  pixels : List (List (List ℕ))
deriving Repr, DecidableEq

/-- Embeds `np.clip(x, 0, 255).astype(np.uint8)` applied to one sample:
clip to [0, 255], then truncate toward zero to an 8-bit integer (for
nonnegative values truncation is the floor). -/
def clipQuant (x : ℚ) : ℕ :=
  (⌊min (max x 0) 255⌋).toNat

/-- Embeds lines 21–23 of `SwarmRemBg.rem`:
`i = 255.0 * images[0].cpu().numpy()`;
`img = Image.fromarray(np.clip(i, 0, 255).astype(np.uint8))`;
`img = img.convert("RGBA")` — the RGB pixel grid is quantized and extended
with a full-opacity alpha channel (value 255). -/
def toPILRGBA (img : Image3) : PILImage :=
  { hasAlpha := true
    pixels := img.map (fun row =>
      row.map (fun px => px.map (fun x => clipQuant (255 * x)) ++ [255])) }

/-- Embeds `np.array(img).astype(np.float32) / 255.0` (line 25). -/
def normalizePixels (p : PILImage) : Image3 :=
  p.pixels.map (fun row => row.map (fun px => px.map (fun v : ℕ => (v : ℚ) / 255)))

/-- Embeds lines 28–29: `mask = np.array(img.getchannel('A')) / 255.0`;
`mask = 1. - mask`. The alpha band is channel index 3 of each pixel. -/
def maskFromAlpha (p : PILImage) : List (List ℚ) :=
  p.pixels.map (fun row => row.map (fun px : List ℕ => 1 - (px.getD 3 0 : ℚ) / 255))

/-- The pair returned by `rem`: `output` is the 1 × H × W × C image batch,
`mask` is the 1 × H × W mask (after `unsqueeze(0)`). -/
structure RemOut where
  output : List Image3
  mask : List (List (List ℚ))
deriving Repr, DecidableEq

/-- Embeds `SwarmRemBg.rem` (lines 19–32), with the external matting
function `rembg.remove` (called with `post_process_mask=True`) injected as
`rmv`. An empty batch makes `images[0]` fail, embedded as `none`. -/
def rem (rmv : PILImage → PILImage) (images : List Image3) : Option RemOut :=
  match images with
  | [] => none
  | img0 :: _ =>
    let img := rmv (toPILRGBA img0)
    let output := normalizePixels img
    let mask :=
      if img.hasAlpha then maskFromAlpha img
      else List.replicate 64 (List.replicate 64 (0 : ℚ))
    some { output := [output], mask := [mask] }

/-! ### Registry aggregation

A Python dict is embedded as an insertion-ordered association list whose
keys are unique (the dict invariant). `dictUnion` embeds the PEP 584 dict
union operator used on lines 5–17 of `SwarmComfyCommon/__init__.py`:
`d1 | d2` copies `d1` and then sets each entry of `d2` in order, so an
entry of `d2` overwrites an equal key of `d1` in place and a new key is
appended. -/

/-- Association-list embedding of a Python dict mapping node-type keys to
node descriptors of type `V`. -/
abbrev PyDict (V : Type) := List (String × V)

/-- The key sequence of a dict. -/
def keys {V : Type} (d : PyDict V) : List String :=
  d.map (fun p => p.1)

/-- Setting one entry: overwrite in place when the key is present,
append otherwise (Python dict item assignment). -/
def dictInsert {V : Type} (d : PyDict V) (k : String) (v : V) : PyDict V :=
  if d.any (fun p => p.1 == k) then
    d.map (fun p => if p.1 == k then (k, v) else p)
  else d ++ [(k, v)]

/-- Python dict union `d1 | d2`: start from `d1` and set each entry of `d2`
in order. -/
def dictUnion {V : Type} (d1 d2 : PyDict V) : PyDict V :=
  d2.foldl (fun acc p => dictInsert acc p.1 p.2) d1

/-- The registry aggregator: the chain
`m1 | m2 | ... | mN` folding the sources left to right from the empty dict. -/
def mergeAll {V : Type} (sources : List (PyDict V)) : PyDict V :=
  sources.foldl dictUnion []

/-- Dict lookup: value of the first (for a dict, only) entry with the key. -/
def dictLookup {V : Type} (d : PyDict V) (k : String) : Option V :=
  (d.find? (fun p => p.1 == k)).map (fun p => p.2)

/-- Two dicts have no key in common. -/
def keysDisjoint {V : Type} (d1 d2 : PyDict V) : Prop :=
  ∀ k ∈ keys d1, k ∉ keys d2

instance {V : Type} (d1 d2 : PyDict V) : Decidable (keysDisjoint d1 d2) :=
  inferInstanceAs (Decidable (∀ k ∈ keys d1, k ∉ keys d2))

/-! ### Helper lemmas for the pipeline -/

/-- Unfolding `rem` on a nonempty batch. -/
theorem rem_cons (rmv : PILImage → PILImage) (img0 : Image3) (rest : List Image3) :
    rem rmv (img0 :: rest) =
      some { output := [normalizePixels (rmv (toPILRGBA img0))]
             mask := [if (rmv (toPILRGBA img0)).hasAlpha then
                        maskFromAlpha (rmv (toPILRGBA img0))
                      else List.replicate 64 (List.replicate 64 (0 : ℚ))] } := rfl

/-- The quantized sample never exceeds 255: clipping to [0, 255] happens
before the 8-bit conversion, so there is no wraparound. -/
theorem clipQuant_le_255 (y : ℚ) : clipQuant y ≤ 255 := by
  have hle : min (max y 0) 255 ≤ (255 : ℚ) := min_le_right _ _
  have hfl : ⌊min (max y 0) 255⌋ ≤ (255 : ℤ) := by
    have := Int.floor_le_floor hle
    simpa using this
  simpa [clipQuant] using Int.toNat_le_toNat hfl

/-- The clipped value is nonnegative. -/
theorem clip_nonneg (y : ℚ) : 0 ≤ min (max y 0) 255 := by
  have h1 : (0 : ℚ) ≤ max y 0 := le_max_right _ _
  have h2 : (0 : ℚ) ≤ 255 := by norm_num
  exact le_min h1 h2

/-- Truncation semantics of `clipQuant`: the result is the integer part of
the clipped value. -/
theorem clipQuant_bounds (y : ℚ) :
    (clipQuant y : ℚ) ≤ min (max y 0) 255 ∧
      min (max y 0) 255 < clipQuant y + 1 := by
  set c : ℚ := min (max y 0) 255 with hc
  have hc0 : 0 ≤ c := clip_nonneg y
  have hfl0 : 0 ≤ ⌊c⌋ := by
    rw [Int.le_floor]
    simpa using hc0
  have hcast : ((clipQuant y : ℕ) : ℚ) = ((⌊c⌋ : ℤ) : ℚ) := by
    rw [clipQuant, ← hc]
    exact_mod_cast congrArg (fun z : ℤ => (z : ℚ)) (Int.toNat_of_nonneg hfl0)
  constructor
  · rw [hcast]
    exact Int.floor_le c
  · have := Int.lt_floor_add_one c
    calc c < (⌊c⌋ : ℚ) + 1 := this
    _ = (clipQuant y : ℚ) + 1 := by rw [hcast]

/-- For a sample already in [0, 1], the clip is the identity and `clipQuant`
reproduces the sample up to 1/255 after renormalization. -/
theorem clipQuant_roundtrip (x : ℚ) (h0 : 0 ≤ x) (h1 : x ≤ 1) :
    |(clipQuant (255 * x) : ℚ) / 255 - x| ≤ 1 / 255 := by
  have hclip : min (max (255 * x) 0) 255 = 255 * x := by
    have hx0 : (0 : ℚ) ≤ 255 * x := by positivity
    have hx255 : 255 * x ≤ 255 := by nlinarith
    rw [max_eq_left hx0, min_eq_left hx255]
  obtain ⟨hlo, hhi⟩ := clipQuant_bounds (255 * x)
  rw [hclip] at hlo hhi
  rw [abs_sub_le_iff]
  constructor
  · have : (clipQuant (255 * x) : ℚ) / 255 ≤ x := by linarith
    linarith
  · have : x - (clipQuant (255 * x) : ℚ) / 255 < 1 / 255 := by linarith
    linarith

/-! ### Claims about the background-removal pipeline -/

/-- C6: only the first image of the batch determines the result: two input
batches agreeing at index 0 but differing in every subsequent image give
identical outputs of `rem` under the same matting function. -/
theorem rem_ignores_rest_of_batch (rmv : PILImage → PILImage) (img0 : Image3)
    (rest1 rest2 : List Image3) :
    rem rmv (img0 :: rest1) = rem rmv (img0 :: rest2) := rfl

/-- C3: if the matting function returns an image lacking an alpha channel,
`rem` returns a 1 × 64 × 64 all-zero mask, whatever the input image's
resolution, instead of failing. -/
theorem rem_missing_alpha_fallback_mask (rmv : PILImage → PILImage)
    (img0 : Image3) (rest : List Image3) (out : RemOut)
    (hout : rem rmv (img0 :: rest) = some out)
    (hnoalpha : (rmv (toPILRGBA img0)).hasAlpha = false) :
    out.mask = [List.replicate 64 (List.replicate 64 (0 : ℚ))] := by
  rw [rem_cons] at hout
  cases hout
  simp [hnoalpha]

/-- Witness for C3: a concrete 1 × 1 input image and a matting function
returning a grid with no alpha band. -/
theorem rem_missing_alpha_fallback_mask_witness :
    (rem (fun _ => { hasAlpha := false, pixels := [[[0]]] }) [[[[(0 : ℚ)]]]] =
        some { output := [[[[(0 : ℚ)]]]]
               mask := [List.replicate 64 (List.replicate 64 (0 : ℚ))] } ∧
      ((fun _ => { hasAlpha := false, pixels := [[[0]]] } : PILImage → PILImage)
          (toPILRGBA [[[(0 : ℚ)]]])).hasAlpha = false) ∧
    ({ output := [[[[(0 : ℚ)]]]]
       mask := [List.replicate 64 (List.replicate 64 (0 : ℚ))] } : RemOut).mask =
      [List.replicate 64 (List.replicate 64 (0 : ℚ))] := by
  have hq : clipQuant 0 = 0 := by rw [clipQuant]; norm_num
  have hout : rem (fun _ => { hasAlpha := false, pixels := [[[0]]] }) [[[[(0 : ℚ)]]]] =
      some { output := [[[[(0 : ℚ)]]]]
             mask := [List.replicate 64 (List.replicate 64 (0 : ℚ))] } := by
    simp [rem, toPILRGBA, normalizePixels, hq]
  exact ⟨⟨hout, rfl⟩,
    rem_missing_alpha_fallback_mask _ _ _ _ hout rfl⟩

/-! ### Concrete fixtures used by witnesses -/

/-- A concrete matting function: constant 1 × 1 RGBA result whose alpha is 0
(fully background). -/
def matBack : PILImage → PILImage :=
  fun _ => { hasAlpha := true, pixels := [[[7, 7, 7, 0]]] }

/-- A concrete 1 × 1 one-channel input image with sample 1/2. -/
def imgHalf : Image3 := [[[(1 : ℚ) / 2]]]

/-- A concrete 1 × 1 three-channel input image with samples 0, 1/2, 1. -/
def imgTri : Image3 := [[[0, (1 : ℚ) / 2, 1]]]

/-- C1: mask polarity: when the matting result has an alpha channel, the
derived mask is 1 minus the normalized alpha, so a fully foreground pixel
(alpha = 255, i.e. 1.0 normalized) gets mask 0 and a fully background pixel
(alpha = 0) gets mask 1. -/
theorem rem_mask_inverts_alpha (rmv : PILImage → PILImage) (img0 : Image3)
    (rest : List Image3) (out : RemOut)
    (hout : rem rmv (img0 :: rest) = some out)
    (halpha : (rmv (toPILRGBA img0)).hasAlpha = true) :
    out.mask = [maskFromAlpha (rmv (toPILRGBA img0))] ∧
    ∀ (ri ci : ℕ) (px : List ℕ),
      (((rmv (toPILRGBA img0)).pixels[ri]?).getD [])[ci]? = some px →
      ∃ m : ℚ, (((maskFromAlpha (rmv (toPILRGBA img0)))[ri]?).getD [])[ci]? = some m ∧
        m = 1 - (px.getD 3 0 : ℚ) / 255 ∧
        (px.getD 3 0 = 255 → m = 0) ∧ (px.getD 3 0 = 0 → m = 1) := by
  rw [rem_cons] at hout
  cases hout
  refine ⟨by simp [halpha], ?_⟩
  intro ri ci px hpx
  cases hrow : (rmv (toPILRGBA img0)).pixels[ri]? with
  | none =>
    rw [hrow] at hpx
    simp at hpx
  | some row =>
    rw [hrow] at hpx
    simp only [Option.getD_some] at hpx
    refine ⟨1 - (px.getD 3 0 : ℚ) / 255, ?_, rfl, ?_, ?_⟩
    · simp [maskFromAlpha, List.getElem?_map, hrow, hpx, List.getD_eq_getElem?_getD]
    · intro h255
      rw [h255]
      norm_num
    · intro h0
      rw [h0]
      norm_num

/-- Witness for C1: the fully-background matting function on a 1 × 1 input. -/
theorem rem_mask_inverts_alpha_witness :
    (rem matBack [imgHalf] =
        some { output := [[[[(7 : ℚ) / 255, 7 / 255, 7 / 255, 0]]]]
               mask := [[[(1 : ℚ)]]] } ∧
      (matBack (toPILRGBA imgHalf)).hasAlpha = true) ∧
    (({ output := [[[[(7 : ℚ) / 255, 7 / 255, 7 / 255, 0]]]]
        mask := [[[(1 : ℚ)]]] } : RemOut).mask =
          [maskFromAlpha (matBack (toPILRGBA imgHalf))] ∧
      ∀ (ri ci : ℕ) (px : List ℕ),
        (((matBack (toPILRGBA imgHalf)).pixels[ri]?).getD [])[ci]? = some px →
        ∃ m : ℚ,
          (((maskFromAlpha (matBack (toPILRGBA imgHalf)))[ri]?).getD [])[ci]? = some m ∧
          m = 1 - (px.getD 3 0 : ℚ) / 255 ∧
          (px.getD 3 0 = 255 → m = 0) ∧ (px.getD 3 0 = 0 → m = 1)) := by
  have hout : rem matBack [imgHalf] =
      some { output := [[[[(7 : ℚ) / 255, 7 / 255, 7 / 255, 0]]]]
             mask := [[[(1 : ℚ)]]] } := by
    simp [rem, matBack, normalizePixels, maskFromAlpha]
  exact ⟨⟨hout, rfl⟩, rem_mask_inverts_alpha _ _ _ _ hout rfl⟩

/-- C2: for a valid single-image batch with samples in [0, 1], `rem` returns
an output batch of size exactly 1 whose samples all lie in [0, 1], for any
8-bit (values ≤ 255) image the matting function returns. -/
theorem rem_output_unit_interval_batch_one (rmv : PILImage → PILImage)
    (img0 : Image3) (out : RemOut)
    (hout : rem rmv [img0] = some out)
    (hrange : ∀ row ∈ img0, ∀ px ∈ row, ∀ x ∈ px, 0 ≤ x ∧ x ≤ 1)
    (h8bit : ∀ row ∈ (rmv (toPILRGBA img0)).pixels, ∀ px ∈ row, ∀ v ∈ px, v ≤ 255) :
    out.output.length = 1 ∧
    ∀ imgO ∈ out.output, ∀ row ∈ imgO, ∀ px ∈ row, ∀ x ∈ px, 0 ≤ x ∧ x ≤ 1 := by
  rw [rem_cons] at hout
  cases hout
  refine ⟨rfl, ?_⟩
  intro imgO hImg row hrow px hpx x hx
  rw [List.mem_singleton] at hImg
  subst hImg
  obtain ⟨row0, hrow0, rfl⟩ := List.mem_map.1 hrow
  obtain ⟨px0, hpx0, rfl⟩ := List.mem_map.1 hpx
  obtain ⟨v, hv, rfl⟩ := List.mem_map.1 hx
  have hvle := h8bit row0 hrow0 px0 hpx0 v hv
  constructor
  · positivity
  · rw [div_le_one (by norm_num : (0 : ℚ) < 255)]
    exact_mod_cast hvle

/-- Witness for C2: identity matting on the concrete 1 × 1 batch `imgHalf`. -/
theorem rem_output_unit_interval_batch_one_witness :
    (rem (fun p => p) [imgHalf] =
        some { output := [[[[(127 : ℚ) / 255, 1]]]], mask := [[[(1 : ℚ)]]] } ∧
      (∀ row ∈ imgHalf, ∀ px ∈ row, ∀ x ∈ px, 0 ≤ x ∧ x ≤ 1) ∧
      (∀ row ∈ ((fun p => p : PILImage → PILImage) (toPILRGBA imgHalf)).pixels,
        ∀ px ∈ row, ∀ v ∈ px, v ≤ 255)) ∧
    (({ output := [[[[(127 : ℚ) / 255, 1]]]], mask := [[[(1 : ℚ)]]] } : RemOut).output.length = 1 ∧
      ∀ imgO ∈ ({ output := [[[[(127 : ℚ) / 255, 1]]]], mask := [[[(1 : ℚ)]]] } : RemOut).output,
        ∀ row ∈ imgO, ∀ px ∈ row, ∀ x ∈ px, 0 ≤ x ∧ x ≤ 1) := by
  have hq : clipQuant (255 / 2) = 127 := by
    rw [clipQuant]
    norm_num
    rfl
  have hout : rem (fun p => p) [imgHalf] =
      some { output := [[[[(127 : ℚ) / 255, 1]]]], mask := [[[(1 : ℚ)]]] } := by
    simp [rem, imgHalf, toPILRGBA, normalizePixels, maskFromAlpha]
    norm_num [hq]
  have hrange : ∀ row ∈ imgHalf, ∀ px ∈ row, ∀ x ∈ px, 0 ≤ x ∧ x ≤ 1 := by
    simp [imgHalf]
    norm_num
  have h8bit : ∀ row ∈ ((fun p => p : PILImage → PILImage) (toPILRGBA imgHalf)).pixels,
      ∀ px ∈ row, ∀ v ∈ px, v ≤ 255 := by
    simp [imgHalf, toPILRGBA]
    norm_num [hq]
  exact ⟨⟨hout, hrange, h8bit⟩,
    rem_output_unit_interval_batch_one _ _ _ hout hrange h8bit⟩

/-- C10: the input image (3 channels per pixel) is extended to RGBA
(4 channels) before matting, and — the matting contract returning a
4-channel image — every pixel of the output image has exactly 4 channels. -/
theorem rem_output_has_four_channels (rmv : PILImage → PILImage)
    (img0 : Image3) (rest : List Image3) (out : RemOut)
    (hout : rem rmv (img0 :: rest) = some out)
    (h3 : ∀ row ∈ img0, ∀ px ∈ row, px.length = 3)
    (hmat4 : ∀ row ∈ (rmv (toPILRGBA img0)).pixels, ∀ px ∈ row, px.length = 4) :
    (∀ row ∈ (toPILRGBA img0).pixels, ∀ px ∈ row, px.length = 4) ∧
    ∀ imgO ∈ out.output, ∀ row ∈ imgO, ∀ px ∈ row, px.length = 4 := by
  rw [rem_cons] at hout
  cases hout
  constructor
  · intro row hrow px hpx
    simp only [toPILRGBA] at hrow
    obtain ⟨row0, hrow0, rfl⟩ := List.mem_map.1 hrow
    obtain ⟨px0, hpx0, rfl⟩ := List.mem_map.1 hpx
    have hl := h3 row0 hrow0 px0 hpx0
    simp [hl]
  · intro imgO hImg row hrow px hpx
    rw [List.mem_singleton] at hImg
    subst hImg
    obtain ⟨row0, hrow0, rfl⟩ := List.mem_map.1 hrow
    obtain ⟨px0, hpx0, rfl⟩ := List.mem_map.1 hpx
    have hl := hmat4 row0 hrow0 px0 hpx0
    simp [hl]

/-- Witness for C10: the fully-background matting function on the concrete
three-channel image `imgTri`. -/
theorem rem_output_has_four_channels_witness :
    (rem matBack [imgTri] =
        some { output := [[[[(7 : ℚ) / 255, 7 / 255, 7 / 255, 0]]]], mask := [[[(1 : ℚ)]]] } ∧
      (∀ row ∈ imgTri, ∀ px ∈ row, px.length = 3) ∧
      (∀ row ∈ (matBack (toPILRGBA imgTri)).pixels, ∀ px ∈ row, px.length = 4)) ∧
    ((∀ row ∈ (toPILRGBA imgTri).pixels, ∀ px ∈ row, px.length = 4) ∧
      ∀ imgO ∈ ({ output := [[[[(7 : ℚ) / 255, 7 / 255, 7 / 255, 0]]]], mask := [[[(1 : ℚ)]]] } : RemOut).output,
        ∀ row ∈ imgO, ∀ px ∈ row, px.length = 4) := by
  have hout : rem matBack [imgTri] =
      some { output := [[[[(7 : ℚ) / 255, 7 / 255, 7 / 255, 0]]]], mask := [[[(1 : ℚ)]]] } := by
    simp [rem, matBack, normalizePixels, maskFromAlpha]
  have h3 : ∀ row ∈ imgTri, ∀ px ∈ row, px.length = 3 := by
    simp [imgTri]
  have hmat4 : ∀ row ∈ (matBack (toPILRGBA imgTri)).pixels, ∀ px ∈ row, px.length = 4 := by
    simp [matBack]
  exact ⟨⟨hout, h3, hmat4⟩,
    rem_output_has_four_channels _ _ _ _ hout h3 hmat4⟩

/-- C7: the 8-bit value handed to the matting function at any sample
position is the sample multiplied by exactly 255, then clipped to [0, 255],
then truncated to an integer; it never exceeds 255, so no wraparound
occurs. -/
theorem toPILRGBA_clip_then_truncate (img0 : Image3) (ri ci chi : ℕ) (x : ℚ)
    (hx : (((img0[ri]?).getD [])[ci]?.getD [])[chi]? = some x) :
    ∃ v : ℕ, ((((toPILRGBA img0).pixels[ri]?).getD [])[ci]?.getD [])[chi]? = some v ∧
      v = clipQuant (255 * x) ∧ v ≤ 255 ∧
      (v : ℚ) ≤ min (max (255 * x) 0) 255 ∧ min (max (255 * x) 0) 255 < v + 1 := by
  cases hrow : img0[ri]? with
  | none =>
    rw [hrow] at hx
    simp at hx
  | some row =>
    rw [hrow] at hx
    simp only [Option.getD_some] at hx
    cases hpx : row[ci]? with
    | none =>
      rw [hpx] at hx
      simp at hx
    | some px =>
      rw [hpx] at hx
      simp only [Option.getD_some] at hx
      have hchi : chi < px.length := (List.getElem?_eq_some.1 hx).1
      refine ⟨clipQuant (255 * x), ?_, rfl, clipQuant_le_255 _, clipQuant_bounds _⟩
      have hpix : (toPILRGBA img0).pixels[ri]? =
          some (row.map (fun px => px.map (fun x => clipQuant (255 * x)) ++ [255])) := by
        simp [toPILRGBA, List.getElem?_map, hrow]
      rw [hpix]
      simp only [Option.getD_some]
      rw [List.getElem?_map, hpx]
      simp only [Option.map_some', Option.getD_some]
      rw [List.getElem?_append_left (by simpa using hchi)]
      rw [List.getElem?_map, hx]
      rfl

/-- Witness for C7 at position (0, 0, 0) of `imgHalf`, sample 1/2. -/
theorem toPILRGBA_clip_then_truncate_witness :
    ((((imgHalf[0]?).getD [])[0]?.getD [])[0]? = some ((1 : ℚ) / 2)) ∧
    ∃ v : ℕ, ((((toPILRGBA imgHalf).pixels[0]?).getD [])[0]?.getD [])[0]? = some v ∧
      v = clipQuant (255 * ((1 : ℚ) / 2)) ∧ v ≤ 255 ∧
      (v : ℚ) ≤ min (max (255 * ((1 : ℚ) / 2)) 0) 255 ∧
      min (max (255 * ((1 : ℚ) / 2)) 0) 255 < (v : ℚ) + 1 := by
  have hx : (((imgHalf[0]?).getD [])[0]?.getD [])[0]? = some ((1 : ℚ) / 2) := by
    simp [imgHalf]
  exact ⟨hx, toPILRGBA_clip_then_truncate imgHalf 0 0 0 ((1 : ℚ) / 2) hx⟩

/-- The normalized output of identity matting, pixel by pixel. -/
theorem normalizePixels_toPILRGBA (img0 : Image3) :
    normalizePixels (toPILRGBA img0) =
      img0.map (fun row => row.map (fun px =>
        (px.map (fun x => clipQuant (255 * x)) ++ [255]).map
          (fun v : ℕ => (v : ℚ) / 255))) := by
  simp only [normalizePixels, toPILRGBA, List.map_map]
  refine List.map_congr_left (fun row hrow => ?_)
  simp only [Function.comp_def, List.map_map]

/-- Under identity matting the derived mask is all zeros, in the shape of
the input image. -/
theorem maskFromAlpha_toPILRGBA (img0 : Image3)
    (hch : ∀ row ∈ img0, ∀ px ∈ row, px.length = 3) :
    maskFromAlpha (toPILRGBA img0) =
      img0.map (fun row => row.map (fun _ => (0 : ℚ))) := by
  simp only [maskFromAlpha, toPILRGBA, List.map_map]
  refine List.map_congr_left (fun row hrow => ?_)
  simp only [Function.comp_def, List.map_map]
  refine List.map_congr_left (fun px hpx => ?_)
  have h3 := hch row hrow px hpx
  have hlen : (List.map (fun x => clipQuant (255 * x)) px).length = 3 := by
    simp [h3]
  have hval : (List.map (fun x => clipQuant (255 * x)) px ++ [255]).getD 3 0 = 255 := by
    rw [List.getD_eq_getElem?_getD, List.getElem?_append_right hlen.le]
    simp [hlen]
  simp only [Function.comp_def] at hval ⊢
  rw [hval]
  norm_num

/-- C5: round trip: if the matting function returns its input unchanged
(its alpha is the full-opacity 255 added by the RGBA conversion), the
output image equals the input up to a quantization error of at most 1/255
per channel, and the derived mask is all zeros. -/
theorem rem_identity_matting_roundtrip (img0 : Image3) (out : RemOut)
    (hout : rem (fun p => p) [img0] = some out)
    (hrange : ∀ row ∈ img0, ∀ px ∈ row, ∀ x ∈ px, 0 ≤ x ∧ x ≤ 1)
    (hch : ∀ row ∈ img0, ∀ px ∈ row, px.length = 3) :
    out.mask = [img0.map (fun row => row.map (fun _ => (0 : ℚ)))] ∧
    ∀ ri ci chi : ℕ, chi < 3 →
      |(((out.output.getD 0 []).getD ri []).getD ci []).getD chi 0
        - ((img0.getD ri []).getD ci []).getD chi 0| ≤ 1 / 255 := by
  rw [rem_cons] at hout
  cases hout
  constructor
  · show [if (toPILRGBA img0).hasAlpha then maskFromAlpha (toPILRGBA img0)
        else List.replicate 64 (List.replicate 64 (0 : ℚ))] = _
    rw [maskFromAlpha_toPILRGBA img0 hch]
    rfl
  · intro ri ci chi hchi
    show |(((normalizePixels (toPILRGBA img0)).getD ri []).getD ci []).getD chi 0
        - ((img0.getD ri []).getD ci []).getD chi 0| ≤ 1 / 255
    rw [normalizePixels_toPILRGBA]
    simp only [List.getD_eq_getElem?_getD]
    rw [List.getElem?_map]
    cases hri : img0[ri]? with
    | none => simp
    | some row =>
      have hrowmem : row ∈ img0 := by
        obtain ⟨h1, e1⟩ := List.getElem?_eq_some.1 hri
        exact e1 ▸ List.getElem_mem h1
      simp only [Option.map_some', Option.getD_some]
      rw [List.getElem?_map]
      cases hci : row[ci]? with
      | none => simp
      | some px =>
        have hpxmem : px ∈ row := by
          obtain ⟨h1, e1⟩ := List.getElem?_eq_some.1 hci
          exact e1 ▸ List.getElem_mem h1
        simp only [Option.map_some', Option.getD_some]
        have h3 := hch row hrowmem px hpxmem
        have hchi3 : chi < px.length := by
          rw [h3]
          exact hchi
        obtain ⟨xval, hxval⟩ : ∃ xv, px[chi]? = some xv :=
          ⟨_, List.getElem?_eq_getElem hchi3⟩
        have hxmem : xval ∈ px := by
          obtain ⟨h1, e1⟩ := List.getElem?_eq_some.1 hxval
          exact e1 ▸ List.getElem_mem h1
        rw [List.getElem?_map, List.getElem?_append_left (by simpa using hchi3),
          List.getElem?_map, hxval]
        simp only [Option.map_some', Option.getD_some]
        have hr := hrange row hrowmem px hpxmem xval hxmem
        exact clipQuant_roundtrip xval hr.1 hr.2

/-- Witness for C5: identity matting on the concrete image `imgTri` with
samples 0, 1/2, 1. -/
theorem rem_identity_matting_roundtrip_witness :
    (rem (fun p => p) [imgTri] =
        some { output := [[[[(0 : ℚ), 127 / 255, 1, 1]]]], mask := [[[(0 : ℚ)]]] } ∧
      (∀ row ∈ imgTri, ∀ px ∈ row, ∀ x ∈ px, 0 ≤ x ∧ x ≤ 1) ∧
      (∀ row ∈ imgTri, ∀ px ∈ row, px.length = 3)) ∧
    (({ output := [[[[(0 : ℚ), 127 / 255, 1, 1]]]], mask := [[[(0 : ℚ)]]] } : RemOut).mask =
        [imgTri.map (fun row => row.map (fun _ => (0 : ℚ)))] ∧
      ∀ ri ci chi : ℕ, chi < 3 →
        |(((({ output := [[[[(0 : ℚ), 127 / 255, 1, 1]]]], mask := [[[(0 : ℚ)]]] } : RemOut).output.getD 0 []).getD ri []).getD ci []).getD chi 0
          - ((imgTri.getD ri []).getD ci []).getD chi 0| ≤ 1 / 255) := by
  have h1 : clipQuant 0 = 0 := by
    rw [clipQuant]
    norm_num
  have h2 : clipQuant (255 / 2) = 127 := by
    rw [clipQuant]
    norm_num
    rfl
  have h3 : clipQuant 255 = 255 := by
    rw [clipQuant]
    norm_num
    rfl
  have hout : rem (fun p => p) [imgTri] =
      some { output := [[[[(0 : ℚ), 127 / 255, 1, 1]]]], mask := [[[(0 : ℚ)]]] } := by
    simp [rem, imgTri, toPILRGBA, normalizePixels, maskFromAlpha]
    norm_num [h1, h2, h3]
  have hrange : ∀ row ∈ imgTri, ∀ px ∈ row, ∀ x ∈ px, 0 ≤ x ∧ x ≤ 1 := by
    simp [imgTri]
    norm_num
  have hch : ∀ row ∈ imgTri, ∀ px ∈ row, px.length = 3 := by
    simp [imgTri]
  exact ⟨⟨hout, hrange, hch⟩,
    rem_identity_matting_roundtrip _ _ hout hrange hch⟩

/-! ### Lemmas about the registry dict operations -/

/-- Lookup on a nonempty dict. -/
theorem dictLookup_cons {V : Type} (p : String × V) (l : PyDict V) (k : String) :
    dictLookup (p :: l) k = if p.1 == k then some p.2 else dictLookup l k := by
  by_cases hpk : (p.1 == k) = true
  · have hfind : List.find? (fun q : String × V => q.1 == k) (p :: l) = some p :=
      List.find?_cons_of_pos _ hpk
    rw [dictLookup, hfind, if_pos hpk]
    rfl
  · have hfind : List.find? (fun q : String × V => q.1 == k) (p :: l) =
        List.find? (fun q : String × V => q.1 == k) l :=
      List.find?_cons_of_neg _ hpk
    rw [dictLookup, hfind, if_neg hpk]
    rfl

/-- A key outside the dict looks up to nothing. -/
theorem dictLookup_eq_none_of_not_mem {V : Type} (d : PyDict V) (k : String)
    (h : k ∉ keys d) :
    dictLookup d k = none := by
  have hall : ∀ x ∈ d, ¬((fun p : String × V => p.1 == k) x = true) := by
    intro x hx hxk
    refine h ?_
    simp only [keys, List.mem_map]
    exact ⟨x, hx, by simpa using hxk⟩
  rw [dictLookup, List.find?_eq_none.2 hall]
  rfl

/-- A key of the dict looks up to something. -/
theorem dictLookup_isSome_of_mem {V : Type} (d : PyDict V) (k : String)
    (h : k ∈ keys d) :
    ∃ v, dictLookup d k = some v := by
  obtain ⟨p, hp, hpk⟩ := List.mem_map.1 h
  have hsome : (d.find? (fun q => q.1 == k)).isSome := by
    rw [List.find?_isSome]
    exact ⟨p, hp, by simp [hpk]⟩
  obtain ⟨q, hq⟩ := Option.isSome_iff_exists.1 hsome
  refine ⟨q.2, ?_⟩
  rw [dictLookup, hq]
  rfl

/-- In-place overwrite: the overwritten key looks up to the new value. -/
theorem dictLookup_map_self {V : Type} (d : PyDict V) (k : String) (v : V)
    (h : d.any (fun p => p.1 == k) = true) :
    dictLookup (d.map (fun p => if p.1 == k then (k, v) else p)) k = some v := by
  induction d with
  | nil => simp at h
  | cons q t ih =>
    simp only [List.map_cons]
    by_cases hq : (q.1 == k) = true
    · rw [if_pos hq, dictLookup_cons]
      simp
    · rw [if_neg hq, dictLookup_cons, if_neg hq]
      refine ih ?_
      rw [List.any_cons] at h
      simpa [hq] using h

/-- Appending a fresh entry: its key looks up to the new value. -/
theorem dictLookup_append_single_self {V : Type} (d : PyDict V) (k : String) (v : V)
    (h : d.any (fun p => p.1 == k) = false) :
    dictLookup (d ++ [(k, v)]) k = some v := by
  induction d with
  | nil =>
    rw [List.nil_append, dictLookup_cons]
    simp
  | cons q t ih =>
    rw [List.cons_append, dictLookup_cons]
    rw [List.any_cons, Bool.or_eq_false_iff] at h
    rw [if_neg (by simp [h.1])]
    exact ih h.2

/-- Setting an entry binds its key to the new value. -/
theorem dictLookup_dictInsert_self {V : Type} (d : PyDict V) (k : String) (v : V) :
    dictLookup (dictInsert d k v) k = some v := by
  rw [dictInsert]
  by_cases h : d.any (fun p => p.1 == k)
  · rw [if_pos h]
    exact dictLookup_map_self d k v h
  · rw [if_neg h]
    exact dictLookup_append_single_self d k v (Bool.eq_false_iff.2 h)

/-- In-place overwrite leaves other keys unchanged. -/
theorem dictLookup_map_ne {V : Type} (d : PyDict V) (k k2 : String) (v : V)
    (hne : k2 ≠ k) :
    dictLookup (d.map (fun p => if p.1 == k then (k, v) else p)) k2 =
      dictLookup d k2 := by
  induction d with
  | nil => rfl
  | cons q t ih =>
    simp only [List.map_cons]
    by_cases hq : (q.1 == k) = true
    · have hq1 : q.1 = k := by simpa using hq
      have hkk2 : ¬((k, v).1 == k2) = true := by
        simp only [beq_iff_eq]
        exact fun hc => hne hc.symm
      have hqk2 : ¬(q.1 == k2) = true := by
        simp only [beq_iff_eq, hq1]
        exact fun hc => hne hc.symm
      rw [if_pos hq, dictLookup_cons, dictLookup_cons, if_neg hkk2, if_neg hqk2]
      exact ih
    · rw [if_neg hq, dictLookup_cons, dictLookup_cons]
      by_cases hq2 : (q.1 == k2) = true
      · rw [if_pos hq2, if_pos hq2]
      · rw [if_neg hq2, if_neg hq2]
        exact ih

/-- Appending a fresh entry leaves other keys unchanged. -/
theorem dictLookup_append_single_ne {V : Type} (d : PyDict V) (k k2 : String) (v : V)
    (hne : k2 ≠ k) :
    dictLookup (d ++ [(k, v)]) k2 = dictLookup d k2 := by
  induction d with
  | nil =>
    rw [List.nil_append, dictLookup_cons]
    rw [if_neg (by simp only [beq_iff_eq]; exact fun hc => hne hc.symm)]
  | cons q t ih =>
    rw [List.cons_append, dictLookup_cons, dictLookup_cons, ih]

/-- Setting an entry leaves every other key unchanged. -/
theorem dictLookup_dictInsert_ne {V : Type} (d : PyDict V) (k k2 : String) (v : V)
    (hne : k2 ≠ k) :
    dictLookup (dictInsert d k v) k2 = dictLookup d k2 := by
  rw [dictInsert]
  by_cases h : d.any (fun p => p.1 == k)
  · rw [if_pos h]
    exact dictLookup_map_ne d k k2 v hne
  · rw [if_neg h]
    exact dictLookup_append_single_ne d k k2 v hne

/-- A union with a dict not containing k does not affect k. -/
theorem dictLookup_dictUnion_not_mem {V : Type} (d1 d2 : PyDict V) (k : String)
    (h : k ∉ keys d2) :
    dictLookup (dictUnion d1 d2) k = dictLookup d1 k := by
  induction d2 generalizing d1 with
  | nil => rfl
  | cons p t ih =>
    simp only [keys, List.map_cons, List.mem_cons, not_or] at h
    have hstep : dictUnion d1 (p :: t) = dictUnion (dictInsert d1 p.1 p.2) t := rfl
    rw [hstep, ih (dictInsert d1 p.1 p.2) (by simpa [keys] using h.2)]
    exact dictLookup_dictInsert_ne d1 p.1 k p.2 h.1

/-- Lookup through a dict union: the right dict wins whenever it binds the
key (its keys being unique, as in a Python dict). -/
theorem dictLookup_dictUnion {V : Type} (d1 d2 : PyDict V) (k : String)
    (hnd : (keys d2).Nodup) :
    dictLookup (dictUnion d1 d2) k =
      match dictLookup d2 k with
      | some v => some v
      | none => dictLookup d1 k := by
  induction d2 generalizing d1 with
  | nil => rfl
  | cons p t ih =>
    simp only [keys, List.map_cons, List.nodup_cons] at hnd
    have hstep : dictUnion d1 (p :: t) = dictUnion (dictInsert d1 p.1 p.2) t := rfl
    rw [hstep, ih (dictInsert d1 p.1 p.2) hnd.2, dictLookup_cons]
    by_cases hk : (p.1 == k) = true
    · have hk1 : p.1 = k := by simpa using hk
      have hlt : dictLookup t k = none := by
        refine dictLookup_eq_none_of_not_mem t k ?_
        rw [← hk1]
        simpa [keys] using hnd.1
      rw [hlt, if_pos hk]
      show dictLookup (dictInsert d1 p.1 p.2) k = some p.2
      rw [← hk1]
      exact dictLookup_dictInsert_self d1 p.1 p.2
    · have hne : k ≠ p.1 := by
        intro hc
        exact hk (by simp [hc])
      rw [if_neg hk, dictLookup_dictInsert_ne d1 p.1 k p.2 hne]

/-- Folding in further sources that do not bind k leaves k unchanged. -/
theorem dictLookup_foldl_not_mem {V : Type} (post : List (PyDict V))
    (acc : PyDict V) (k : String) (h : ∀ d ∈ post, k ∉ keys d) :
    dictLookup (List.foldl dictUnion acc post) k = dictLookup acc k := by
  induction post generalizing acc with
  | nil => rfl
  | cons d t ih =>
    rw [List.foldl_cons, ih _ (fun d2 h2 => h d2 (List.mem_cons_of_mem _ h2))]
    exact dictLookup_dictUnion_not_mem acc d k (h d (List.mem_cons_self _ _))

/-- C4: the registry merge is last-writer-wins: in a chain of source
mappings, a key bound by a source and by none of the later sources resolves
to that source's descriptor, silently overwriting any earlier binding and
raising no error. -/
theorem mergeAll_last_writer_wins {V : Type} (pre post : List (PyDict V))
    (s : PyDict V) (k : String)
    (hs : (keys s).Nodup)
    (hk : k ∈ keys s)
    (hpost : ∀ d ∈ post, k ∉ keys d) :
    dictLookup (mergeAll (pre ++ s :: post)) k = dictLookup s k := by
  rw [mergeAll, List.foldl_append, List.foldl_cons]
  have hstep : List.foldl dictUnion (dictUnion (List.foldl dictUnion [] pre) s) post =
      List.foldl dictUnion (dictUnion (List.foldl dictUnion [] pre) s) post := rfl
  rw [dictLookup_foldl_not_mem post _ k hpost]
  rw [dictLookup_dictUnion _ s k hs]
  obtain ⟨v, hv⟩ := dictLookup_isSome_of_mem s k hk
  rw [hv]

/-- Witness for C4: the key is bound in the first and second sources and
resolves to the second (the last one containing it). -/
theorem mergeAll_last_writer_wins_witness :
    ((keys [("a", 2), ("b", 3)]).Nodup ∧
      "a" ∈ keys [("a", 2), ("b", 3)] ∧
      (∀ d ∈ [[("b", 9)]], "a" ∉ keys d)) ∧
    dictLookup (mergeAll ([[("a", 1)]] ++ [("a", 2), ("b", 3)] :: [[("b", 9)]])) "a" =
      dictLookup [("a", 2), ("b", 3)] "a" := by
  refine ⟨⟨by decide, by decide, by decide⟩, ?_⟩
  exact mergeAll_last_writer_wins [[("a", 1)]] [[("b", 9)]] [("a", 2), ("b", 3)] "a"
    (by decide) (by decide) (by decide)

/-- Keys of a concatenation. -/
theorem keys_append {V : Type} (d1 d2 : PyDict V) :
    keys (d1 ++ d2) = keys d1 ++ keys d2 := by
  simp [keys]

/-- Setting a fresh key appends the entry. -/
theorem dictInsert_of_not_mem {V : Type} (d : PyDict V) (k : String) (v : V)
    (h : k ∉ keys d) :
    dictInsert d k v = d ++ [(k, v)] := by
  have hany : ¬(d.any (fun p => p.1 == k) = true) := by
    intro hc
    obtain ⟨p, hp, hpk⟩ := List.any_eq_true.1 hc
    refine h ?_
    simp only [keys, List.mem_map]
    exact ⟨p, hp, by simpa using hpk⟩
  rw [dictInsert, if_neg hany]

/-- A union of key-disjoint dicts is concatenation (the right dict having
unique keys, as a Python dict does). -/
theorem dictUnion_eq_append {V : Type} (d1 d2 : PyDict V)
    (hdisj : keysDisjoint d1 d2) (hnd : (keys d2).Nodup) :
    dictUnion d1 d2 = d1 ++ d2 := by
  induction d2 generalizing d1 with
  | nil => simp [dictUnion]
  | cons p t ih =>
    simp only [keys, List.map_cons, List.nodup_cons] at hnd
    have hstep : dictUnion d1 (p :: t) = dictUnion (dictInsert d1 p.1 p.2) t := rfl
    have hp1 : p.1 ∉ keys d1 := by
      intro hc
      exact hdisj p.1 hc (by simp [keys])
    rw [hstep, dictInsert_of_not_mem d1 p.1 p.2 hp1]
    have hdisj2 : keysDisjoint (d1 ++ [(p.1, p.2)]) t := by
      intro k hk
      rw [keys_append] at hk
      rcases List.mem_append.1 hk with hk1 | hk2
      · intro hc
        exact hdisj k hk1 (by simp [keys, List.mem_cons]; right; simpa [keys] using hc)
      · have hkp : k = p.1 := by simpa [keys] using hk2
        rw [hkp]
        simpa [keys] using hnd.1
    rw [ih (d1 ++ [(p.1, p.2)]) hdisj2 hnd.2, List.append_assoc]
    rfl

/-- Folding key-disjoint sources onto an accumulator disjoint from all of
them concatenates everything. -/
theorem foldl_dictUnion_eq_append {V : Type} (ss : List (PyDict V)) (acc : PyDict V)
    (hnds : ∀ s ∈ ss, (keys s).Nodup) (hpair : ss.Pairwise keysDisjoint)
    (hacc : ∀ s ∈ ss, keysDisjoint acc s) :
    List.foldl dictUnion acc ss = acc ++ ss.flatten := by
  induction ss generalizing acc with
  | nil => simp
  | cons s t ih =>
    rw [List.foldl_cons,
      dictUnion_eq_append acc s (hacc s (List.mem_cons_self _ _))
        (hnds s (List.mem_cons_self _ _))]
    have hpairrest := List.Pairwise.of_cons hpair
    have hhead : ∀ d ∈ t, keysDisjoint s d :=
      fun d hd => (List.pairwise_cons.1 hpair).1 d hd
    have hacc2 : ∀ d ∈ t, keysDisjoint (acc ++ s) d := by
      intro d hd k hk
      rw [keys_append] at hk
      rcases List.mem_append.1 hk with hk1 | hk2
      · exact hacc d (List.mem_cons_of_mem _ hd) k hk1
      · exact hhead d hd k hk2
    rw [ih (acc ++ s) (fun d hd => hnds d (List.mem_cons_of_mem _ hd)) hpairrest hacc2,
      List.append_assoc]
    rfl

/-- Merging pairwise key-disjoint sources flattens them. -/
theorem mergeAll_eq_flatten {V : Type} (ss : List (PyDict V))
    (hnds : ∀ s ∈ ss, (keys s).Nodup) (hpair : ss.Pairwise keysDisjoint) :
    mergeAll ss = ss.flatten := by
  rw [mergeAll,
    foldl_dictUnion_eq_append ss [] hnds hpair
      (fun s _ k hk => by simp [keys] at hk)]
  rfl

/-- C8: a union of two key-disjoint source mappings contains every entry of
both and has cardinality the sum of theirs; more generally, the merged
registry of pairwise disjoint sources contains every entry of every
source. -/
theorem mergeAll_disjoint_union {V : Type} (d1 d2 : PyDict V) (ss : List (PyDict V))
    (hnd2 : (keys d2).Nodup) (hdisj : keysDisjoint d1 d2)
    (hnds : ∀ s ∈ ss, (keys s).Nodup) (hpair : ss.Pairwise keysDisjoint) :
    ((dictUnion d1 d2).length = d1.length + d2.length ∧
      ∀ p : String × V, p ∈ d1 ∨ p ∈ d2 → p ∈ dictUnion d1 d2) ∧
    ∀ s ∈ ss, ∀ p ∈ s, p ∈ mergeAll ss := by
  have hu : dictUnion d1 d2 = d1 ++ d2 := dictUnion_eq_append d1 d2 hdisj hnd2
  refine ⟨⟨?_, ?_⟩, ?_⟩
  · rw [hu]
    exact List.length_append _ _
  · intro p hp
    rw [hu, List.mem_append]
    exact hp
  · have hflat : mergeAll ss = ss.flatten := mergeAll_eq_flatten ss hnds hpair
    intro s hs p hp
    rw [hflat, List.mem_flatten]
    exact ⟨s, hs, hp⟩

/-- Witness for C8: two disjoint dicts and a chain of three pairwise
disjoint sources. -/
theorem mergeAll_disjoint_union_witness :
    ((keys [("b", 2), ("c", 3)]).Nodup ∧
      keysDisjoint [("a", 1)] [("b", 2), ("c", 3)] ∧
      (∀ s ∈ [[("x", 4)], [("y", 5)], [("z", 6)]], (keys s).Nodup) ∧
      ([[("x", 4)], [("y", 5)], [("z", 6)]] : List (PyDict ℕ)).Pairwise keysDisjoint) ∧
    (((dictUnion [("a", 1)] [("b", 2), ("c", 3)]).length =
        ([("a", 1)] : PyDict ℕ).length + ([("b", 2), ("c", 3)] : PyDict ℕ).length ∧
      ∀ p : String × ℕ, p ∈ [("a", 1)] ∨ p ∈ [("b", 2), ("c", 3)] →
        p ∈ dictUnion [("a", 1)] [("b", 2), ("c", 3)]) ∧
    ∀ s ∈ [[("x", 4)], [("y", 5)], [("z", 6)]], ∀ p ∈ s,
      p ∈ mergeAll [[("x", 4)], [("y", 5)], [("z", 6)]]) := by
  refine ⟨⟨by decide, by decide, by decide, by decide⟩, ?_⟩
  exact mergeAll_disjoint_union [("a", 1)] [("b", 2), ("c", 3)]
    [[("x", 4)], [("y", 5)], [("z", 6)]] (by decide) (by decide) (by decide) (by decide)

end Backpacking
